import Mathlib

/-!
Shallow embedding of the CSS build-loader plugin (`src/vs/css.build.ts`).

JavaScript strings are modelled as `List Char`; the Node `fs` and `path`
collaborators (external interfaces per the spec) are modelled as explicit
environment records; a thrown exception is modelled as `Except.error ()`;
the mutable `_inlinedResources` array is modelled as an explicitly returned
append log.
-/

namespace CssBuild

def toL (s : String) : List Char := s.data

/-- Utilities.startsWith: `haystack.length >= needle.length && haystack.substr(0, needle.length) === needle`. -/
def startsWith (haystack needle : List Char) : Bool :=
  decide (needle.length ≤ haystack.length ∧ haystack.take needle.length = needle)

/-- JS `s.endsWith(t)` shape used to model the `/\.(svg|png)$/` tests. -/
def endsWith (s t : List Char) : Bool :=
  startsWith s.reverse t.reverse

/-- The directory portion of a string: everything up to and including the last
`/`, or `[]` when there is no `/`.  This is the `lastIndexOf('/') + substr`
computation shared by `Utilities.pathOf` and `Utilities.commonFolderPrefix`. -/
def dirPortion (s : List Char) : List Char :=
  (s.reverse.dropWhile (fun c => decide (c ≠ '/'))).reverse

/-- Utilities.pathOf. -/
def pathOf (filename : List Char) : List Char := dirPortion filename

/-- Utilities.commonPrefix: longest shared leading run of equal characters. -/
def commonPrefixOf : List Char → List Char → List Char
  | x :: xs, y :: ys => if x = y then x :: commonPrefixOf xs ys else []
  | _, _ => []

/-- Utilities.commonFolderPrefix: `commonPrefix` truncated back to the last `/`. -/
def commonFolderPrefixOf (fromPath toPath : List Char) : List Char :=
  dirPortion (commonPrefixOf fromPath toPath)

/-- JS `String.prototype.split(c)` (single-character separator): `""` splits to `[""]`. -/
def jsSplitAux (sep : Char) (acc : List Char) : List Char → List (List Char)
  | [] => [acc.reverse]
  | x :: rest =>
    if x = sep then acc.reverse :: jsSplitAux sep [] rest
    else jsSplitAux sep (x :: acc) rest

def jsSplit (sep : Char) (s : List Char) : List (List Char) := jsSplitAux sep [] s

/-- Utilities.relativePath. -/
def relativePath (fromPath toPath : List Char) : List Char :=
  if startsWith toPath (toL "/") || startsWith toPath (toL "http://")
      || startsWith toPath (toL "https://") then
    toPath
  else
    let pfx := commonFolderPrefixOf fromPath toPath
    let f := fromPath.drop pfx.length
    let t := toPath.drop pfx.length
    let upCount := (jsSplit '/' f).length
    (List.replicate (upCount - 1) (toL "../")).flatten ++ t

/-- The `while` loop inside `Utilities.joinPaths.push`: cut a path into pieces,
each piece keeping its terminating `/`; a final piece without `/` is kept too. -/
def splitPiecesAux (acc : List Char) : List Char → List (List Char)
  | [] => if acc.isEmpty then [] else [acc.reverse]
  | c :: rest =>
    if c = '/' then (acc.reverse ++ ['/']) :: splitPiecesAux [] rest
    else splitPiecesAux (c :: acc) rest

def splitPieces (s : List Char) : List (List Char) := splitPiecesAux [] s

/-- Utilities.joinPaths.pushPiece.  The pieces array grows at the end (JS push). -/
def pushPiece (pieces : List (List Char)) (piece : List Char) : List (List Char) :=
  if piece = toL "./" then
    pieces
  else if piece = toL "../" then
    match pieces.getLast? with
    | some prev =>
      if prev = toL "/" then pieces
      else if prev ≠ toL "../" then pieces.dropLast
      else pieces ++ [piece]
    | none => pieces ++ [piece]
  else pieces ++ [piece]

/-- Utilities.joinPaths.push: feed every piece of `s` to `pushPiece`. -/
def pushAll (pieces : List (List Char)) (s : List Char) : List (List Char) :=
  (splitPieces s).foldl pushPiece pieces

/-- JS `s.indexOf(c, start)`: first index `≥ start` holding `c`. -/
def indexOfFrom (s : List Char) (c : Char) (start : Nat) : Option Nat :=
  ((s.drop start).findIdx? (fun x => x = c)).map (· + start)

/-- Utilities.joinPaths.findSlashIndexAfterPrefix.  A missing `/` gives JS `-1`,
swallowed by `Math.max` with the prefix length. -/
def findSlashIndexAfterPrefix (haystack pre : List Char) : Nat :=
  if startsWith haystack pre then
    match indexOfFrom haystack '/' pre.length with
    | some i => max pre.length i
    | none => pre.length
  else 0

/-- The `aPathStartIndex` computation of `Utilities.joinPaths`
(the JS `||` chain treats `0` as falsy). -/
def aPathStart (a : List Char) : Nat :=
  let i1 := findSlashIndexAfterPrefix a (toL "//")
  let i2 := if i1 = 0 then findSlashIndexAfterPrefix a (toL "http://") else i1
  if i2 = 0 then findSlashIndexAfterPrefix a (toL "https://") else i2

/-- Utilities.joinPaths. -/
def joinPaths (a b : List Char) : List Char :=
  let i := aPathStart a
  let pieces0 := pushAll [] (a.drop i)
  let pieces1 := if b.head? = some '/' then ([] : List (List Char)) else pieces0
  let pieces2 := pushAll pieces1 b
  a.take i ++ pieces2.flatten

/-- JS regex `\s` character class. -/
def isJsSpace (c : Char) : Bool :=
  c == ' ' || c == '\t' || c == '\n' || c == '\r' || c == '\x0b' || c == '\x0c' ||
  c == '\u00A0' || c == '\u1680' ||
  (decide ('\u2000' ≤ c) && decide (c ≤ '\u200A')) ||
  c == '\u2028' || c == '\u2029' || c == '\u202F' || c == '\u205F' ||
  c == '\u3000' || c == '\uFEFF'

/-- One chunk of a stylesheet as seen by the global regex
`/url\(\s*([^\)]+)\s*\)?/g` of `Utilities.replaceURL`: either literal text
that is copied through, or the non-`)` run following a `url(`. -/
inductive Chunk
  | lit : List Char → Chunk
  | url : List Char → Chunk
deriving DecidableEq

/-- The scan loop of the global regex.  At each position, `url(` followed by a
nonempty run of non-`)` characters is a match (the closing `)` is optional and
consumed when present); otherwise the scan advances one character.  The `Nat`
fuel only serves structural recursion; `scanChunks` supplies enough of it. -/
def scanGo : Nat → List Char → List Chunk
  | 0, _ => []
  | _ + 1, [] => []
  | n + 1, c :: rest =>
    if startsWith (c :: rest) (toL "url(") then
      let after := rest.drop 3
      let body := after.takeWhile (fun ch => decide (ch ≠ ')'))
      if body.isEmpty then Chunk.lit [c] :: scanGo n rest
      else
        let afterBody := after.drop body.length
        let afterParen := if afterBody.head? = some ')' then afterBody.tail else afterBody
        Chunk.url body :: scanGo n afterParen
    else Chunk.lit [c] :: scanGo n rest

def scanChunks (s : List Char) : List Chunk := scanGo s.length s

/-- The capture group `([^\)]+)` of the regex: the leading `\s*` greedily eats
the whitespace prefix of the non-`)` run, backing off one character when the
whole run is whitespace (the capture needs at least one character). -/
def captureOf (body : List Char) : List Char :=
  body.drop (min (body.takeWhile isJsSpace).length (body.length - 1))

/-- Lines 266-278 of the replacer callback: strip one leading quote, trailing
spaces/tabs, then one trailing quote. -/
def cleanURL (url0 : List Char) : List Char :=
  let u1 :=
    match url0 with
    | q :: r => if q = '"' ∨ q = '\'' then r else url0
    | [] => url0
  let u2 := (u1.reverse.dropWhile (fun c => c == ' ' || c == '\t')).reverse
  match u2.getLast? with
  | some q => if q = '"' ∨ q = '\'' then u2.dropLast else u2
  | none => u2

/-- Protocol / data classification of lines 280-282: such values bypass the
replacer. -/
def isPassthroughURL (url : List Char) : Bool :=
  startsWith url (toL "data:") || startsWith url (toL "http://")
    || startsWith url (toL "https://")

/-- The replacement for one captured `url(...)` body (pure replacer). -/
def urlTokenResult (replacer : List Char → List Char) (body : List Char) : List Char :=
  let url := cleanURL (captureOf body)
  if isPassthroughURL url then url else replacer url

def renderChunks (replacer : List Char → List Char) : List Chunk → List Char
  | [] => []
  | Chunk.lit l :: rest => l ++ renderChunks replacer rest
  | Chunk.url u :: rest =>
    toL "url(" ++ urlTokenResult replacer u ++ ')' :: renderChunks replacer rest

/-- Utilities.replaceURL. -/
def replaceURL (contents : List Char) (replacer : List Char → List Char) : List Char :=
  renderChunks replacer (scanChunks contents)

/-- The shared rewrite of a relative url: `relativePath(newFile, joinPaths(pathOf(originalFile), url))`. -/
def rewritePathFn (originalFile newFile url : List Char) : List Char :=
  relativePath newFile (joinPaths (pathOf originalFile) url)

/-- CSSPlugin._rewriteUrls. -/
def rewriteUrls (originalFile newFile contents : List Char) : List Char :=
  replaceURL contents (fun url => rewritePathFn originalFile newFile url)

/-- The `INodeBuffer` interface the plugin declares for itself: a byte length
plus the two `toString` views it uses.  The filesystem collaborator decides
their contents. -/
structure INodeBuffer where
  length : Nat
  base64 : List Char
  utf8 : List Char

/-- The external `fs`/`path` collaborators (`readFileSync`, `path.dirname`,
`path.join`); `readFileSync` answering `none` models a thrown read error. -/
structure NodeEnv where
  readFileSync : List Char → Option INodeBuffer
  dirname : List Char → List Char
  join2 : List Char → List Char → List Char

/-- The `.replace(...)` chain applied to an SVG file text before percent
embedding (lines 119-126), ending with whitespace-run collapapse. -/
def jsReplaceAll (target : Char) (repl : List Char) (s : List Char) : List Char :=
  (s.map (fun c => if c = target then repl else [c])).flatten

/-- JS `.replace(/\s+/g, ' ')`; the flag records whether the previous
character was whitespace. -/
def collapseWsAux : Bool → List Char → List Char
  | _, [] => []
  | inRun, c :: rest =>
    if isJsSpace c then
      if inRun then collapseWsAux true rest
      else ' ' :: collapseWsAux true rest
    else c :: collapseWsAux false rest

def escapeSvgText (s : List Char) : List Char :=
  collapseWsAux false
    (jsReplaceAll '#' (toL "%23")
      (jsReplaceAll '&' (toL "%26")
        (jsReplaceAll '>' (toL "%3E")
          (jsReplaceAll '<' (toL "%3C")
            (jsReplaceAll '%' (toL "%25")
              (jsReplaceAll '"' ['\''] s))))))

/-- The replacer closure of `CSSPlugin._rewriteOrInlineUrls` for a single
relative url: read-and-inline candidates, falling back to the path rewrite.
The second component is what gets pushed onto `_inlinedResources`. -/
def rewriteOrInlineReplacer (env : NodeEnv)
    (originalFileFSPath originalFile newFile : List Char)
    (forceBase64 : Bool) (inlineByteLimit : Nat) (url : List Char) :
    Except Unit (List Char × List (List Char)) :=
  if endsWith url (toL ".svg") || endsWith url (toL ".png") then
    let fsPath := env.join2 (env.dirname originalFileFSPath) url
    match env.readFileSync fsPath with
    | none => Except.error ()
    | some fileContents =>
      if fileContents.length < inlineByteLimit then
        let normalizedFSPath := fsPath.map (fun c => if c = '\\' then '/' else c)
        let mime := if endsWith url (toL ".svg") then toL "image/svg+xml" else toL "image/png"
        let dataBase64 := toL ";base64," ++ fileContents.base64
        let data :=
          if (!forceBase64) && endsWith url (toL ".svg") then
            let encodedData := ',' :: escapeSvgText fileContents.utf8
            if encodedData.length < dataBase64.length then encodedData else dataBase64
          else dataBase64
        Except.ok ('"' :: (toL "data:" ++ mime ++ data ++ ['"']), [normalizedFSPath])
      else
        Except.ok (rewritePathFn originalFile newFile url, [])
  else
    Except.ok (rewritePathFn originalFile newFile url, [])

/-- Effectful replacement of one `url(...)` body: the classification gate of
`Utilities.replaceURL` wrapped around an effectful replacer. -/
def urlTokenResultE (f : List Char → Except Unit (List Char × List (List Char)))
    (body : List Char) : Except Unit (List Char × List (List Char)) :=
  let url := cleanURL (captureOf body)
  if isPassthroughURL url then Except.ok (url, []) else f url

def renderChunksE (f : List Char → Except Unit (List Char × List (List Char))) :
    List Chunk → Except Unit (List Char × List (List Char))
  | [] => Except.ok ([], [])
  | Chunk.lit l :: rest => do
    let (o, g) ← renderChunksE f rest
    Except.ok (l ++ o, g)
  | Chunk.url u :: rest => do
    let (r, g1) ← urlTokenResultE f u
    let (o, g2) ← renderChunksE f rest
    Except.ok (toL "url(" ++ r ++ ')' :: o, g1 ++ g2)

/-- CSSPlugin._rewriteOrInlineUrls. -/
def rewriteOrInlineUrls (env : NodeEnv)
    (originalFileFSPath originalFile newFile contents : List Char)
    (forceBase64 : Bool) (inlineByteLimit : Nat) :
    Except Unit (List Char × List (List Char)) :=
  renderChunksE
    (rewriteOrInlineReplacer env originalFileFSPath originalFile newFile
      forceBase64 inlineByteLimit)
    (scanChunks contents)

/-- The `inlineResources` configuration value `false | true | 'base64'`. -/
inductive InlineMode
  | off
  | auto
  | base64
deriving DecidableEq

def forceBase64Of : InlineMode → Bool
  | InlineMode.base64 => true
  | _ => false

/-- A record of `_entryPoints[moduleName]`. -/
structure EntryData where
  moduleName : List Char
  contents : List Char
  fsPath : List Char

def bannerLines : List (List Char) :=
  [toL "/*---------------------------------------------------------",
   toL " * Copyright (c) Microsoft Corporation. All rights reserved.",
   toL " *--------------------------------------------------------*/"]

/-- One iteration of the `writeFile` loop body (lines 89-95). -/
def entryOutput (env : NodeEnv) (mode : InlineMode) (limit : Nat)
    (newModule : List Char) (e : EntryData) :
    Except Unit (List Char × List (List Char)) :=
  match mode with
  | InlineMode.off => Except.ok (rewriteUrls e.moduleName newModule e.contents, [])
  | _ =>
    rewriteOrInlineUrls env e.fsPath e.moduleName newModule e.contents
      (forceBase64Of mode) limit

def writeFileEntries (env : NodeEnv) (mode : InlineMode) (limit : Nat)
    (newModule : List Char) : List EntryData →
    Except Unit (List (List Char) × List (List Char))
  | [] => Except.ok ([], [])
  | e :: rest => do
    let (t, g1) ← entryOutput env mode limit newModule e
    let (ts, g2) ← writeFileEntries env mode limit newModule rest
    Except.ok (t :: ts, g1 ++ g2)

/-- CSSPlugin.writeFile for one output unit: the blob handed to `write`
(banner plus per-entry results, CRLF-joined), or a propagated error in which
case `write` is never called.  The second component is the inlined-resource
log growth. -/
def writeFileContents (env : NodeEnv) (mode : InlineMode) (limit : Nat)
    (newModule : List Char) (entries : List EntryData) :
    Except Unit (List Char × List (List Char)) := do
  let (ts, g) ← writeFileEntries env mode limit newModule entries
  Except.ok (List.intercalate (toL "\r\n") (bannerLines ++ ts), g)

/-- The relative-path computation as worded by claim C3: one `../` per
`/`-separated segment of the stripped `fromPath` (the code uses one fewer;
this definition exists to be compared against `relativePath`). -/
def relativePathClaimedC3 (fromPath toPath : List Char) : List Char :=
  if startsWith toPath (toL "/") || startsWith toPath (toL "http://")
      || startsWith toPath (toL "https://") then
    toPath
  else
    let pfx := commonFolderPrefixOf fromPath toPath
    let f := fromPath.drop pfx.length
    let t := toPath.drop pfx.length
    (List.replicate (jsSplit '/' f).length (toL "../")).flatten ++ t

/-- The piece-push behaviour as worded by claim C4: a `../` piece pops the
previous piece unless that piece is a root `/` or itself `../`, in which case
the `../` is pushed (the code instead drops the `../` on a root `/`; this
definition exists to be compared against `pushPiece`). -/
def pushPieceClaimedC4 (pieces : List (List Char)) (piece : List Char) : List (List Char) :=
  if piece = toL "./" then
    pieces
  else if piece = toL "../" then
    match pieces.getLast? with
    | some prev =>
      if prev = toL "/" ∨ prev = toL "../" then pieces ++ [piece]
      else pieces.dropLast
    | none => pieces ++ [piece]
  else pieces ++ [piece]

def pushAllClaimedC4 (pieces : List (List Char)) (s : List Char) : List (List Char) :=
  (splitPieces s).foldl pushPieceClaimedC4 pieces

/-- `joinPaths` with claim C4's piece behaviour substituted. -/
def joinPathsClaimedC4 (a b : List Char) : List Char :=
  let i := aPathStart a
  let pieces0 := pushAllClaimedC4 [] (a.drop i)
  let pieces1 := if b.head? = some '/' then ([] : List (List Char)) else pieces0
  let pieces2 := pushAllClaimedC4 pieces1 b
  a.take i ++ pieces2.flatten

/-- A one-byte buffer whose UTF-8 view is `X`, used as a concrete filesystem
answer in counterexamples and witnesses. -/
def bufTiny : INodeBuffer :=
  { length := 1, base64 := toL "WA==", utf8 := toL "X" }

/-- A concrete filesystem where every read succeeds with `bufTiny`. -/
def envTiny : NodeEnv :=
  { readFileSync := fun _ => some bufTiny
    dirname := fun p => p
    join2 := fun a b => a ++ '/' :: b }

/-- A concrete filesystem where every read throws. -/
def envNoRead : NodeEnv :=
  { readFileSync := fun _ => none
    dirname := fun p => p
    join2 := fun a b => a ++ '/' :: b }

/-- A concrete 500-byte buffer (at/above a limit of 100 in witnesses). -/
def bufBig : INodeBuffer :=
  { length := 500, base64 := toL "QUFB", utf8 := toL "AAA" }

/-- A concrete filesystem where every read succeeds with `bufBig`. -/
def envBig : NodeEnv :=
  { readFileSync := fun _ => some bufBig
    dirname := fun p => p
    join2 := fun a b => a ++ '/' :: b }

/-- A concrete entry-point record used in witnesses. -/
def entryA : EntryData :=
  { moduleName := toL "a/f.css", contents := toL "url(a.svg)", fsPath := toL "d" }

/-- Validity of one piece produced by `splitPieces`: a run of non-`/`
characters closed by `/`. -/
def isSlashPiece (p : List Char) : Prop :=
  ∃ w, p = w ++ ['/'] ∧ '/' ∉ w

/-- A final piece without the closing `/`. -/
def isEndPiece (p : List Char) : Prop :=
  p ≠ [] ∧ '/' ∉ p

/-- A piece that `pushPiece` treats without any special casing. -/
def isNormalPiece (p : List Char) : Prop :=
  p ≠ toL "./" ∧ p ≠ toL "../" ∧ p ≠ toL "/"

instance (p : List Char) : Decidable (isNormalPiece p) := by
  unfold isNormalPiece
  infer_instance

/-- Shape of any piece list produced by `splitPieces` (and preserved by the
piece stack): every piece but the last is slash-closed, the last may be open. -/
def ValidPieces (L : List (List Char)) : Prop :=
  (∀ p ∈ L.dropLast, isSlashPiece p) ∧
  (∀ p, L.getLast? = some p → isSlashPiece p ∨ isEndPiece p)

/-- Shape invariant of the `joinPaths` piece stack when no root-slash piece is
ever pushed: a bottom run of `../` pieces below ordinary pieces. -/
def StackOk (S : List (List Char)) : Prop :=
  ∃ m N, S = List.replicate m (toL "../") ++ N ∧ ∀ p ∈ N, isNormalPiece p

/-! ### Helper lemmas -/

theorem splitPiecesAux_flatten : ∀ (s acc : List Char),
    (splitPiecesAux acc s).flatten = acc.reverse ++ s := by
  intro s
  induction s with
  | nil =>
    intro acc
    by_cases h : acc.isEmpty
    · simp_all [splitPiecesAux, List.isEmpty_iff]
    · simp_all [splitPiecesAux]
  | cons c rest ih =>
    intro acc
    by_cases h : c = '/'
    · subst h
      simp [splitPiecesAux, ih]
    · simp [splitPiecesAux, h, ih (c :: acc)]

theorem flatten_splitPieces (s : List Char) : (splitPieces s).flatten = s := by
  simpa using splitPiecesAux_flatten s []

theorem pushPiece_plain (S : List (List Char)) (p : List Char)
    (h1 : p ≠ toL "./") (h2 : p ≠ toL "../") : pushPiece S p = S ++ [p] := by
  simp [pushPiece, h1, h2]

theorem foldl_pushPiece_plain : ∀ (L S : List (List Char)),
    (∀ p ∈ L, p ≠ toL "./" ∧ p ≠ toL "../") →
    L.foldl pushPiece S = S ++ L := by
  intro L
  induction L with
  | nil => simp
  | cons x L ih =>
    intro S h
    have hx := h x (List.mem_cons_self x L)
    rw [List.foldl_cons, pushPiece_plain S x hx.1 hx.2,
      ih (S ++ [x]) (fun p hp => h p (List.mem_cons_of_mem x hp))]
    simp

theorem takeWhile_eq_self {p : Char → Bool} : ∀ {l : List Char},
    (∀ c ∈ l, p c = true) → l.takeWhile p = l := by
  intro l
  induction l with
  | nil => intro _; rfl
  | cons x l ih =>
    intro h
    simp [List.takeWhile_cons, h x (List.mem_cons_self x l),
      ih (fun c hc => h c (List.mem_cons_of_mem x hc))]

theorem takeWhile_append_stop {p : Char → Bool} (x : Char) (t : List Char) : ∀ (l : List Char),
    (∀ c ∈ l, p c = true) → p x = false →
    (l ++ x :: t).takeWhile p = l := by
  intro l
  induction l with
  | nil => intro _ hx; simp [List.takeWhile_cons, hx]
  | cons y l ih =>
    intro h hx
    simp [List.takeWhile_cons, h y (List.mem_cons_self y l),
      ih (fun c hc => h c (List.mem_cons_of_mem y hc)) hx]

theorem scanGo_nil : ∀ n, scanGo n [] = [] := by
  intro n; cases n <;> rfl

theorem jsSplitAux_length (sep : Char) : ∀ (s acc : List Char),
    (jsSplitAux sep acc s).length = s.count sep + 1 := by
  intro s
  induction s with
  | nil => intro acc; simp [jsSplitAux]
  | cons x rest ih =>
    intro acc
    by_cases h : x = sep
    · subst h
      simp [jsSplitAux, ih, List.count_cons]
    · simp [jsSplitAux, h, ih, List.count_cons, Ne.symm h]

theorem jsSplit_length (sep : Char) (s : List Char) :
    (jsSplit sep s).length = s.count sep + 1 :=
  jsSplitAux_length sep s []

theorem writeFileEntries_off (env : NodeEnv) (limit : Nat) (newM : List Char) :
    ∀ entries, writeFileEntries env InlineMode.off limit newM entries
      = Except.ok (entries.map (fun e => rewriteUrls e.moduleName newM e.contents), []) := by
  intro entries
  induction entries with
  | nil => rfl
  | cons e rest ih =>
    simp [writeFileEntries, entryOutput, ih]
    rfl

/-! ### Claim C6 -/

/-- Claim C6: with inlining enabled, a relative `.svg`/`.png` candidate whose
read byte length is strictly below the limit is replaced by a `data:` URI and
its resolved path is appended exactly once to the inlined-resource log; at or
above the limit it is replaced by the recomputed relative path and the log is
untouched. -/
theorem c6_inline_threshold (env : NodeEnv) (p o n : List Char) (fb : Bool)
    (limit : Nat) (url : List Char) (buf : INodeBuffer)
    (hext : (endsWith url (toL ".svg") || endsWith url (toL ".png")) = true)
    (hread : env.readFileSync (env.join2 (env.dirname p) url) = some buf) :
    (buf.length < limit →
      ∃ payload,
        rewriteOrInlineReplacer env p o n fb limit url
          = Except.ok ('"' :: (toL "data:" ++ payload),
              [(env.join2 (env.dirname p) url).map (fun c => if c = '\\' then '/' else c)])) ∧
    (limit ≤ buf.length →
      rewriteOrInlineReplacer env p o n fb limit url
        = Except.ok (rewritePathFn o n url, [])) := by
  constructor
  · intro hlt
    refine ⟨(if endsWith url (toL ".svg") then toL "image/svg+xml" else toL "image/png") ++
      ((if (!fb) && endsWith url (toL ".svg") then
          (if (',' :: escapeSvgText buf.utf8).length
              < (toL ";base64," ++ buf.base64).length
           then ',' :: escapeSvgText buf.utf8
           else toL ";base64," ++ buf.base64)
        else toL ";base64," ++ buf.base64) ++ ['"']), ?_⟩
    simp only [rewriteOrInlineReplacer, hext, if_true, hread, if_pos hlt]
    simp [List.append_assoc]
  · intro hge
    simp only [rewriteOrInlineReplacer, hext, if_true, hread]
    rw [if_neg (by omega)]

theorem c6_inline_threshold_witness :
    (∃ payload,
      rewriteOrInlineReplacer envTiny (toL "d") (toL "a/f.css") (toL "out/x") false 100 (toL "a.svg")
        = Except.ok ('"' :: (toL "data:" ++ payload), [toL "d/a.svg"])) ∧
    rewriteOrInlineReplacer envBig (toL "d") (toL "a/f.css") (toL "out/x") false 100 (toL "a.svg")
      = Except.ok (rewritePathFn (toL "a/f.css") (toL "out/x") (toL "a.svg"), []) :=
  ⟨(c6_inline_threshold envTiny (toL "d") (toL "a/f.css") (toL "out/x") false 100
      (toL "a.svg") bufTiny (by decide) rfl).1 (by decide),
   (c6_inline_threshold envBig (toL "d") (toL "a/f.css") (toL "out/x") false 100
      (toL "a.svg") bufBig (by decide) rfl).2 (by decide)⟩

/-! ### Claim C7 -/

/-- Claim C7: inlining an SVG candidate without base64 forcing builds the
percent-escaped payload by exactly the replacements `"`→`'`, `%`→`%25`,
`<`→`%3C`, `>`→`%3E`, `&`→`%26`, `#`→`%23` followed by whitespace-run
collapse, and emits whichever of the base64 and percent-escaped payloads is
shorter. -/
theorem c7_svg_encoding (env : NodeEnv) (p o n : List Char)
    (limit : Nat) (url : List Char) (buf : INodeBuffer)
    (hsvg : endsWith url (toL ".svg") = true)
    (hread : env.readFileSync (env.join2 (env.dirname p) url) = some buf)
    (hsize : buf.length < limit) :
    rewriteOrInlineReplacer env p o n false limit url
      = Except.ok ('"' :: (toL "data:" ++ toL "image/svg+xml" ++
          (if (',' :: escapeSvgText buf.utf8).length
              < (toL ";base64," ++ buf.base64).length
           then ',' :: escapeSvgText buf.utf8
           else toL ";base64," ++ buf.base64) ++ ['"']),
          [(env.join2 (env.dirname p) url).map (fun c => if c = '\\' then '/' else c)])
    ∧ escapeSvgText buf.utf8 = collapseWsAux false
        (jsReplaceAll '#' (toL "%23")
          (jsReplaceAll '&' (toL "%26")
            (jsReplaceAll '>' (toL "%3E")
              (jsReplaceAll '<' (toL "%3C")
                (jsReplaceAll '%' (toL "%25")
                  (jsReplaceAll '"' ['\''] buf.utf8)))))) := by
  constructor
  · simp only [rewriteOrInlineReplacer, hsvg, Bool.true_or, if_true, hread,
      if_pos hsize, Bool.not_false, Bool.true_and]
  · rfl

theorem c7_svg_encoding_witness :
    rewriteOrInlineUrls envTiny (toL "d") (toL "a/f.css") (toL "out/x")
        (toL "url(a.svg)") false 5000
      = Except.ok (toL "url(\"data:image/svg+xml,X\")", [toL "d/a.svg"]) := by
  have h := (c7_svg_encoding envTiny (toL "d") (toL "a/f.css") (toL "out/x")
    5000 (toL "a.svg") bufTiny (by decide) rfl (by decide)).1
  simp only [rewriteOrInlineUrls, scanChunks]
  rw [show scanGo (toL "url(a.svg)").length (toL "url(a.svg)")
      = [Chunk.url (toL "a.svg")] from rfl]
  simp only [renderChunksE, urlTokenResultE]
  rw [show cleanURL (captureOf (toL "a.svg")) = toL "a.svg" from rfl]
  rw [if_neg (by decide), h]
  rfl

/-! ### Claim C9 -/

/-- Claim C9: with inlining enabled, every `.svg`/`.png` candidate is read
before the size comparison, so an unreadable candidate errors for every
threshold; with inlining off, the rewrite is independent of the filesystem
environment and of the threshold, and always succeeds. -/
theorem c9_eager_read_and_pure_off :
    (∀ (env : NodeEnv) (p o n : List Char) (fb : Bool) (limit : Nat) (url : List Char),
      (endsWith url (toL ".svg") || endsWith url (toL ".png")) = true →
      env.readFileSync (env.join2 (env.dirname p) url) = none →
      rewriteOrInlineReplacer env p o n fb limit url = Except.error ()) ∧
    (∀ (env1 env2 : NodeEnv) (limit1 limit2 : Nat) (newM : List Char)
        (entries : List EntryData),
      writeFileContents env1 InlineMode.off limit1 newM entries
        = writeFileContents env2 InlineMode.off limit2 newM entries) ∧
    (∀ (env : NodeEnv) (limit : Nat) (newM : List Char) (entries : List EntryData),
      ∃ out, writeFileContents env InlineMode.off limit newM entries
        = Except.ok out) := by
  refine ⟨?_, ?_, ?_⟩
  · intro env p o n fb limit url hext hread
    simp only [rewriteOrInlineReplacer, hext, if_true, hread]
  · intro env1 env2 limit1 limit2 newM entries
    simp only [writeFileContents, writeFileEntries_off]
  · intro env limit newM entries
    refine ⟨(List.intercalate (toL "\r\n")
      (bannerLines ++ entries.map (fun e => rewriteUrls e.moduleName newM e.contents)), []), ?_⟩
    simp only [writeFileContents, writeFileEntries_off]
    rfl

theorem c9_eager_read_and_pure_off_witness :
    rewriteOrInlineReplacer envNoRead (toL "d") (toL "a/f.css") (toL "out/x")
        false 0 (toL "a.svg") = Except.error () :=
  c9_eager_read_and_pure_off.1 envNoRead (toL "d") (toL "a/f.css") (toL "out/x")
    false 0 (toL "a.svg") (by decide) rfl

/-! ### Claim C8 -/

/-- Claim C8: a failed candidate read is not caught anywhere inside the
rewriter: one erroring token makes the whole chunk rendering error, and one
erroring entry makes the whole write step error, so no output blob is
produced and no path-rewrite fallback happens for that token. -/
theorem c8_error_propagation :
    (∀ (f : List Char → Except Unit (List Char × List (List Char)))
        (u : List Char) (chunks : List Chunk),
      Chunk.url u ∈ chunks → urlTokenResultE f u = Except.error () →
      renderChunksE f chunks = Except.error ()) ∧
    (∀ (env : NodeEnv) (mode : InlineMode) (limit : Nat) (newM : List Char)
        (e : EntryData) (entries : List EntryData),
      e ∈ entries → entryOutput env mode limit newM e = Except.error () →
      writeFileContents env mode limit newM entries = Except.error ()) := by
  constructor
  · intro f u chunks
    induction chunks with
    | nil => intro h; cases h
    | cons c rest ih =>
      intro hmem herr
      rcases List.mem_cons.mp hmem with heq | hmem'
      · rw [← heq]
        simp only [renderChunksE, urlTokenResultE] at herr ⊢
        rw [herr]
        rfl
      · cases c with
        | lit l =>
          simp only [renderChunksE, ih hmem' herr]
          rfl
        | url u' =>
          simp only [renderChunksE, ih hmem' herr]
          cases h' : urlTokenResultE f u' with
          | error e => rfl
          | ok v => rfl
  · intro env mode limit newM e entries
    induction entries with
    | nil => intro h; cases h
    | cons e' rest ih =>
      intro hmem herr
      rcases List.mem_cons.mp hmem with heq | hmem'
      · rw [← heq] at *
        simp only [writeFileContents, writeFileEntries, herr]
        rfl
      · have hrest : writeFileContents env mode limit newM rest = Except.error () :=
          ih hmem' herr
        simp only [writeFileContents, writeFileEntries] at hrest ⊢
        cases h1 : entryOutput env mode limit newM e' with
        | error e => rfl
        | ok v =>
          cases h2 : writeFileEntries env mode limit newM rest with
          | error e2 => rfl
          | ok v2 => rw [h2] at hrest; cases hrest

theorem c8_error_propagation_witness :
    writeFileContents envNoRead InlineMode.auto 100 (toL "out/x") [entryA]
      = Except.error () :=
  c8_error_propagation.2 envNoRead InlineMode.auto 100 (toL "out/x") entryA [entryA]
    (List.mem_singleton.mpr rfl) rfl

/-! ### Claim C10 -/

/-- Claim C10: the closing parenthesis is optional: `url(` followed by a
nonempty run of non-`)` characters reaching the end of input is still matched,
processed like any other token, and emitted with a closing parenthesis added. -/
theorem c10_optional_close_paren (repl : List Char → List Char) (body : List Char)
    (hne : body ≠ []) (hnp : ∀ c ∈ body, c ≠ ')') :
    replaceURL (toL "url(" ++ body) repl
      = toL "url(" ++ urlTokenResult repl body ++ [')']
    ∧ replaceURL (toL "url(" ++ body) repl
      = replaceURL (toL "url(" ++ body ++ [')']) repl := by
  have hbody : body.takeWhile (fun ch => decide (ch ≠ ')')) = body :=
    takeWhile_eq_self (fun c hc => by simpa using hnp c hc)
  have hbody2 : (body ++ [')']).takeWhile (fun ch => decide (ch ≠ ')')) = body :=
    takeWhile_append_stop ')' [] body (fun c hc => by simpa using hnp c hc) (by simp)
  have hne' : body.isEmpty = false := by
    cases body with
    | nil => exact absurd rfl hne
    | cons a l => rfl
  have hscan1 : scanChunks (toL "url(" ++ body) = [Chunk.url body] := by
    show scanGo (toL "url(" ++ body).length (toL "url(" ++ body) = [Chunk.url body]
    have hlen : (toL "url(" ++ body).length = body.length + 4 := by
      simp [toL]
    rw [hlen]
    show scanGo (body.length + 3 + 1) ('u' :: 'r' :: 'l' :: '(' :: body) = [Chunk.url body]
    rw [scanGo]
    rw [if_pos (by simp [startsWith, toL])]
    simp only [List.drop_succ_cons, List.drop_zero, hbody, hne', Bool.false_eq_true,
      if_false, List.drop_length]
    rw [if_neg (by simp)]
    rw [scanGo_nil]
  have hscan2 : scanChunks (toL "url(" ++ body ++ [')']) = [Chunk.url body] := by
    show scanGo (toL "url(" ++ body ++ [')']).length (toL "url(" ++ body ++ [')'])
      = [Chunk.url body]
    have hlen : (toL "url(" ++ body ++ [')']).length = body.length + 4 + 1 := by
      simp [toL]
    rw [hlen]
    show scanGo (body.length + 4 + 1) ('u' :: 'r' :: 'l' :: '(' :: (body ++ [')']))
      = [Chunk.url body]
    rw [scanGo]
    rw [if_pos (by simp [startsWith, toL])]
    simp only [List.drop_succ_cons, List.drop_zero, hbody2, hne', Bool.false_eq_true,
      if_false]
    rw [List.drop_left]
    rw [if_pos (by simp)]
    simp only [List.tail_cons]
    rw [scanGo_nil]
  constructor
  · rw [replaceURL, hscan1]
    simp [renderChunks]
  · rw [replaceURL, hscan1, replaceURL, hscan2]

theorem c10_optional_close_paren_witness :
    replaceURL (toL "url(" ++ toL "a.css") (fun u => toL "R/" ++ u)
      = toL "url(" ++ urlTokenResult (fun u => toL "R/" ++ u) (toL "a.css") ++ [')'] :=
  (c10_optional_close_paren (fun u => toL "R/" ++ u) (toL "a.css")
    (by decide) (by decide)).1

/-! ### Claim C1 -/

/-- Counterexample to claim C1 as stated: an inlined `data:` URI is emitted
wrapped in double quotes, `url("data:image/svg+xml,X")`, not in the unquoted
form `url(data:image/svg+xml,X)` the claim demands. -/
theorem c1_counterexample :
    rewriteOrInlineUrls envTiny (toL "d") (toL "a/f.css") (toL "out/x")
        (toL "url(a.svg)") false 5000
      = Except.ok (toL "url(\"data:image/svg+xml,X\")", [toL "d/a.svg"])
    ∧ toL "url(\"data:image/svg+xml,X\")" ≠ toL "url(data:image/svg+xml,X)" :=
  ⟨rfl, by decide⟩

/-- Claim C1 as amended: every successful replacement is either the recomputed
relative path emitted exactly as computed (no quotes added), or a `data:` URI
wrapped in double quotes. -/
theorem c1_replacement_quoting (env : NodeEnv) (p o n : List Char) (fb : Bool)
    (limit : Nat) (url out : List Char) (log : List (List Char))
    (h : rewriteOrInlineReplacer env p o n fb limit url = Except.ok (out, log)) :
    (out = rewritePathFn o n url ∧ log = []) ∨
    (∃ mid, out = '"' :: (toL "data:" ++ mid ++ ['"'])) := by
  cases hext : (endsWith url (toL ".svg") || endsWith url (toL ".png")) with
  | true =>
    simp only [rewriteOrInlineReplacer, hext, if_true] at h
    cases hread : env.readFileSync (env.join2 (env.dirname p) url) with
    | none =>
      simp only [hread] at h
      exact Except.noConfusion h
    | some buf =>
      simp only [hread] at h
      by_cases hlt : buf.length < limit
      · rw [if_pos hlt] at h
        simp only [Except.ok.injEq, Prod.mk.injEq] at h
        obtain ⟨h1, h2⟩ := h
        refine Or.inr ⟨(if endsWith url (toL ".svg") then toL "image/svg+xml"
            else toL "image/png") ++
          (if (!fb) && endsWith url (toL ".svg") then
            (if (',' :: escapeSvgText buf.utf8).length
                < (toL ";base64," ++ buf.base64).length
             then ',' :: escapeSvgText buf.utf8
             else toL ";base64," ++ buf.base64)
           else toL ";base64," ++ buf.base64), ?_⟩
        rw [← h1]
        simp [List.append_assoc]
      · rw [if_neg hlt] at h
        simp only [Except.ok.injEq, Prod.mk.injEq] at h
        exact Or.inl ⟨h.1.symm, h.2.symm⟩
  | false =>
    simp only [rewriteOrInlineReplacer, hext, Bool.false_eq_true, if_false,
      Except.ok.injEq, Prod.mk.injEq] at h
    exact Or.inl ⟨h.1.symm, h.2.symm⟩

theorem c1_replacement_quoting_witness :
    (rewritePathFn (toL "a/f.css") (toL "out/x") (toL "q.css")
        = rewritePathFn (toL "a/f.css") (toL "out/x") (toL "q.css")
      ∧ ([] : List (List Char)) = []) ∨
    (∃ mid, rewritePathFn (toL "a/f.css") (toL "out/x") (toL "q.css")
        = '"' :: (toL "data:" ++ mid ++ ['"'])) :=
  c1_replacement_quoting envTiny (toL "d") (toL "a/f.css") (toL "out/x")
    false 5000 (toL "q.css") _ _ rfl

/-! ### Claim C2 -/

/-- Counterexample to claim C2 as stated: an absolute (leading `/`) token
ending in `.png` is not left unaltered under every inlining configuration:
with inlining enabled and a small readable file it is replaced by an inlined
`data:` URI. -/
theorem c2_counterexample :
    rewriteOrInlineUrls envTiny (toL "d") (toL "a/f.css") (toL "out/x")
        (toL "url(/a.png)") false 5000
      = Except.ok (toL "url(\"data:image/png;base64,WA==\")", [toL "d//a.png"])
    ∧ toL "url(\"data:image/png;base64,WA==\")" ≠ toL "url(/a.png)" :=
  ⟨rfl, by decide⟩

/-- Claim C2 as amended: a token whose trimmed unquoted value begins with
`data:`, `http://` or `https://` is never handed to any replacer, so it is
left unaltered under every configuration; an absolute (leading `/`) token is
left unaltered by the path rewrite provided its segments contain no `./` or
`../`, the originating location is not protocol-qualified, and — for the
inlining replacer — the token is not an inlined candidate. -/
theorem c2_passthrough :
    (∀ (f : List Char → Except Unit (List Char × List (List Char))) (body : List Char),
      isPassthroughURL (cleanURL (captureOf body)) = true →
      urlTokenResultE f body = Except.ok (cleanURL (captureOf body), [])) ∧
    (∀ (o n url : List Char), url.head? = some '/' →
      (∀ pc ∈ splitPieces url, pc ≠ toL "./" ∧ pc ≠ toL "../") →
      aPathStart (pathOf o) = 0 →
      rewritePathFn o n url = url) ∧
    (∀ (env : NodeEnv) (p o n : List Char) (fb : Bool) (limit : Nat) (url : List Char),
      url.head? = some '/' →
      (∀ pc ∈ splitPieces url, pc ≠ toL "./" ∧ pc ≠ toL "../") →
      aPathStart (pathOf o) = 0 →
      ((endsWith url (toL ".svg") || endsWith url (toL ".png")) = false ∨
        (∃ buf, env.readFileSync (env.join2 (env.dirname p) url) = some buf
          ∧ limit ≤ buf.length)) →
      rewriteOrInlineReplacer env p o n fb limit url = Except.ok (url, [])) := by
  have key : ∀ (o n url : List Char), url.head? = some '/' →
      (∀ pc ∈ splitPieces url, pc ≠ toL "./" ∧ pc ≠ toL "../") →
      aPathStart (pathOf o) = 0 →
      rewritePathFn o n url = url := by
    intro o n url hhead hpc hstart
    obtain ⟨t, rfl⟩ : ∃ t, url = '/' :: t := by
      cases url with
      | nil => cases hhead
      | cons c t => exact ⟨t, by injection hhead with h; rw [h]⟩
    have hjoin : joinPaths (pathOf o) ('/' :: t) = '/' :: t := by
      simp only [joinPaths, hstart]
      rw [if_pos (show ('/' :: t).head? = some '/' from rfl)]
      rw [pushAll, foldl_pushPiece_plain _ _ hpc]
      simp [flatten_splitPieces]
    rw [rewritePathFn, hjoin, relativePath]
    rw [if_pos (by simp [startsWith, toL])]
  refine ⟨?_, key, ?_⟩
  · intro f body h
    rw [urlTokenResultE]
    rw [if_pos h]
  · intro env p o n fb limit url hhead hpc hstart hnoinline
    rcases hnoinline with hext | ⟨buf, hread, hge⟩
    · simp only [rewriteOrInlineReplacer, hext, Bool.false_eq_true, if_false,
        key o n url hhead hpc hstart]
    · cases hext : (endsWith url (toL ".svg") || endsWith url (toL ".png")) with
      | true =>
        simp only [rewriteOrInlineReplacer, hext, if_true, hread]
        rw [if_neg (by omega), key o n url hhead hpc hstart]
      | false =>
        simp only [rewriteOrInlineReplacer, hext, Bool.false_eq_true, if_false,
          key o n url hhead hpc hstart]

theorem c2_passthrough_witness :
    urlTokenResultE (fun _ => Except.error ()) (toL "data:image/png;base64,AA")
      = Except.ok (cleanURL (captureOf (toL "data:image/png;base64,AA")), [])
    ∧ rewritePathFn (toL "a/f.css") (toL "out/x") (toL "/theme/ic.gif")
      = toL "/theme/ic.gif" :=
  ⟨c2_passthrough.1 (fun _ => Except.error ()) (toL "data:image/png;base64,AA") (by decide),
   c2_passthrough.2.1 (toL "a/f.css") (toL "out/x") (toL "/theme/ic.gif")
     (by decide) (by decide) (by decide)⟩

/-! ### Claim C3 -/

/-- Counterexample to claim C3 as stated: for `from = "a/b"`, `to = "c"` the
stripped `from` has two `/`-separated segments but the result carries a single
`../`, so the claimed "segment count equals the number of `../` prefixes"
fails; `relativePathClaimedC3` renders the claim's wording. -/
theorem c3_counterexample :
    relativePath (toL "a/b") (toL "c") = toL "../c"
    ∧ relativePathClaimedC3 (toL "a/b") (toL "c") = toL "../../c"
    ∧ (jsSplit '/' (toL "a/b")).length = 2
    ∧ toL "../c" ≠ toL "../../c" :=
  ⟨rfl, rfl, rfl, by decide⟩

/-- Claim C3 as amended: passthrough for absolute or protocol-qualified `to`;
otherwise one `../` per `/` character of the stripped `from` (i.e. per
`/`-separated segment, minus one) prefixed to the stripped `to`. -/
theorem c3_updot_count (fromPath toPath : List Char) :
    ((startsWith toPath (toL "/") || startsWith toPath (toL "http://")
        || startsWith toPath (toL "https://")) = true →
      relativePath fromPath toPath = toPath) ∧
    ((startsWith toPath (toL "/") || startsWith toPath (toL "http://")
        || startsWith toPath (toL "https://")) = false →
      relativePath fromPath toPath
        = (List.replicate
            ((fromPath.drop (commonFolderPrefixOf fromPath toPath).length).count '/')
            (toL "../")).flatten
          ++ toPath.drop (commonFolderPrefixOf fromPath toPath).length) := by
  constructor
  · intro h
    rw [relativePath, if_pos h]
  · intro h
    simp only [relativePath, h, Bool.false_eq_true, if_false, jsSplit_length,
      Nat.add_sub_cancel]

theorem c3_updot_count_witness :
    relativePath (toL "out/bundle") (toL "a/img/x.png")
      = (List.replicate
          (((toL "out/bundle").drop
            (commonFolderPrefixOf (toL "out/bundle") (toL "a/img/x.png")).length).count '/')
          (toL "../")).flatten
        ++ (toL "a/img/x.png").drop
            (commonFolderPrefixOf (toL "out/bundle") (toL "a/img/x.png")).length :=
  (c3_updot_count (toL "out/bundle") (toL "a/img/x.png")).2 (by decide)

/-! ### Claim C4 -/

/-- Counterexample to claim C4 as stated: when the previous pushed piece is
the root slash `/`, the code drops the `../` instead of pushing it, so
`joinPaths("/", "../c")` is `"/c"`, not the `"/../c"` the claimed behaviour
(`joinPathsClaimedC4`) produces. -/
theorem c4_counterexample :
    joinPaths (toL "/") (toL "../c") = toL "/c"
    ∧ joinPathsClaimedC4 (toL "/") (toL "../c") = toL "/../c"
    ∧ toL "/c" ≠ toL "/../c" :=
  ⟨rfl, rfl, by decide⟩

/-- Claim C4 as amended: `./` is dropped; `../` pops the previously pushed
segment, except that on top of a `../` (or of an empty stack) it is pushed,
and on top of a root `/` it is dropped; every other segment is pushed; in
particular `joinPaths("a/b/", "../c") = "a/c"`. -/
theorem c4_pushPiece_cases :
    (∀ ps, pushPiece ps (toL "./") = ps) ∧
    (∀ ps, ps.getLast? = some (toL "/") → pushPiece ps (toL "../") = ps) ∧
    (∀ ps, ps.getLast? = some (toL "../") →
      pushPiece ps (toL "../") = ps ++ [toL "../"]) ∧
    (∀ ps prev, ps.getLast? = some prev → prev ≠ toL "/" → prev ≠ toL "../" →
      pushPiece ps (toL "../") = ps.dropLast) ∧
    (pushPiece [] (toL "../") = [toL "../"]) ∧
    (∀ ps x, x ≠ toL "./" → x ≠ toL "../" → pushPiece ps x = ps ++ [x]) ∧
    joinPaths (toL "a/b/") (toL "../c") = toL "a/c" := by
  have ne1 : toL "../" ≠ toL "./" := by decide
  have ne2 : toL "../" ≠ toL "/" := by decide
  refine ⟨?_, ?_, ?_, ?_, by rfl, ?_, by rfl⟩
  · intro ps; simp [pushPiece]
  · intro ps h; simp [pushPiece, h, ne1]
  · intro ps h; simp [pushPiece, h, ne1, ne2]
  · intro ps prev h h1 h2; simp [pushPiece, h, ne1, h1, h2]
  · intro ps x h1 h2; exact pushPiece_plain ps x h1 h2

theorem c4_pushPiece_cases_witness :
    pushPiece [toL "x/"] (toL "../") = [] :=
  c4_pushPiece_cases.2.2.2.1 [toL "x/"] (toL "x/") rfl (by decide) (by decide)

/-! ### Structural lemmas on `splitPieces` -/

theorem splitPiecesAux_cons_slash (acc t : List Char) :
    splitPiecesAux acc ('/' :: t) = (acc.reverse ++ ['/']) :: splitPiecesAux [] t := by
  simp [splitPiecesAux]

theorem splitPiecesAux_cons_ne (acc t : List Char) (c : Char) (h : c ≠ '/') :
    splitPiecesAux acc (c :: t) = splitPiecesAux (c :: acc) t := by
  simp [splitPiecesAux, h]

theorem splitPiecesAux_append : ∀ (s : List Char), s.getLast? = some '/' →
    ∀ (acc t : List Char),
    splitPiecesAux acc (s ++ t) = splitPiecesAux acc s ++ splitPiecesAux [] t := by
  intro s
  induction s with
  | nil => intro h; cases h
  | cons c s' ih =>
    intro h acc t
    cases s' with
    | nil =>
      have hc : c = '/' := by
        simpa using h
      subst hc
      rw [List.cons_append, List.nil_append, splitPiecesAux_cons_slash,
        splitPiecesAux_cons_slash]
      simp [splitPiecesAux]
    | cons d s'' =>
      have h' : (d :: s'').getLast? = some '/' := by
        rwa [List.getLast?_cons_cons] at h
      by_cases hc : c = '/'
      · subst hc
        rw [List.cons_append, splitPiecesAux_cons_slash, splitPiecesAux_cons_slash,
          ih h' [] t, List.cons_append]
      · rw [List.cons_append, splitPiecesAux_cons_ne _ _ _ hc,
          splitPiecesAux_cons_ne _ _ _ hc, ih h' (c :: acc) t]

theorem splitPieces_append (s t : List Char) (h : s.getLast? = some '/') :
    splitPieces (s ++ t) = splitPieces s ++ splitPieces t :=
  splitPiecesAux_append s h [] t

theorem splitPiecesAux_no_slash : ∀ (w acc : List Char), '/' ∉ w →
    splitPiecesAux acc w
      = if acc.reverse ++ w = [] then [] else [acc.reverse ++ w] := by
  intro w
  induction w with
  | nil =>
    intro acc _
    by_cases h : acc = [] <;> simp [splitPiecesAux, h]
  | cons x w' ih =>
    intro acc hx
    have hx1 : x ≠ '/' := fun h => hx (h ▸ List.mem_cons_self x w')
    have hx2 : '/' ∉ w' := fun h => hx (List.mem_cons_of_mem x h)
    rw [splitPiecesAux_cons_ne _ _ _ hx1, ih (x :: acc) hx2]
    simp

theorem splitPieces_end_piece (w : List Char) (hw : '/' ∉ w) (hne : w ≠ []) :
    splitPieces w = [w] := by
  rw [splitPieces, splitPiecesAux_no_slash w [] hw]
  simp [hne]

theorem splitPiecesAux_slash_run : ∀ (w acc t : List Char), '/' ∉ w →
    splitPiecesAux acc (w ++ '/' :: t)
      = (acc.reverse ++ w ++ ['/']) :: splitPiecesAux [] t := by
  intro w
  induction w with
  | nil =>
    intro acc t _
    rw [List.nil_append, splitPiecesAux_cons_slash]
    simp
  | cons x w' ih =>
    intro acc t hx
    have hx1 : x ≠ '/' := fun h => hx (h ▸ List.mem_cons_self x w')
    have hx2 : '/' ∉ w' := fun h => hx (List.mem_cons_of_mem x h)
    rw [List.cons_append, splitPiecesAux_cons_ne _ _ _ hx1, ih (x :: acc) t hx2]
    simp

theorem splitPieces_slash_piece (w t : List Char) (hw : '/' ∉ w) :
    splitPieces (w ++ '/' :: t) = (w ++ ['/']) :: splitPieces t := by
  rw [splitPieces, splitPiecesAux_slash_run w [] t hw]
  rfl

theorem splitPieces_slash_cons (t : List Char) :
    splitPieces ('/' :: t) = toL "/" :: splitPieces t :=
  splitPieces_slash_piece [] t (by simp)

theorem splitPieces_eq_nil_iff (s : List Char) : splitPieces s = [] ↔ s = [] := by
  constructor
  · intro h
    have := flatten_splitPieces s
    rw [h] at this
    simpa using this.symm
  · intro h; subst h; rfl

/-! ### Piece validity -/

theorem validPieces_nil : ValidPieces [] := by
  constructor
  · intro p hp; cases hp
  · intro p hp; cases hp

theorem validPieces_cons {x : List Char} {L : List (List Char)}
    (hx : isSlashPiece x) (hL : ValidPieces L) : ValidPieces (x :: L) := by
  cases L with
  | nil =>
    refine ⟨?_, ?_⟩
    · intro p hp; simp [List.dropLast] at hp
    · intro p hp
      simp only [List.getLast?_singleton, Option.some.injEq] at hp
      exact hp ▸ Or.inl hx
  | cons y ys =>
    refine ⟨?_, ?_⟩
    · intro p hp
      rw [List.dropLast_cons₂] at hp
      rcases List.mem_cons.mp hp with h | h
      · exact h ▸ hx
      · exact hL.1 p h
    · intro p hp
      rw [List.getLast?_cons_cons] at hp
      exact hL.2 p hp

theorem validPieces_of_cons {x : List Char} {L : List (List Char)}
    (h : ValidPieces (x :: L)) (hne : L ≠ []) : ValidPieces L := by
  cases L with
  | nil => exact absurd rfl hne
  | cons y ys =>
    refine ⟨?_, ?_⟩
    · intro p hp
      exact h.1 p (by rw [List.dropLast_cons₂]; exact List.mem_cons_of_mem x hp)
    · intro p hp
      exact h.2 p (by rwa [List.getLast?_cons_cons])

theorem validPieces_head {x : List Char} {L : List (List Char)}
    (h : ValidPieces (x :: L)) (hne : L ≠ []) : isSlashPiece x := by
  cases L with
  | nil => exact absurd rfl hne
  | cons y ys =>
    exact h.1 x (by rw [List.dropLast_cons₂]; exact List.mem_cons_self x _)

theorem validPieces_splitPiecesAux : ∀ (s acc : List Char), '/' ∉ acc →
    ValidPieces (splitPiecesAux acc s) := by
  intro s
  induction s with
  | nil =>
    intro acc hacc
    by_cases h : acc = []
    · subst h; exact validPieces_nil
    · rw [show splitPiecesAux acc [] = [acc.reverse] by simp [splitPiecesAux, h]]
      refine ⟨?_, ?_⟩
      · intro p hp; simp [List.dropLast] at hp
      · intro p hp
        simp only [List.getLast?_singleton, Option.some.injEq] at hp
        refine hp ▸ Or.inr ⟨by simpa using h, by simpa using hacc⟩
  | cons c s' ih =>
    intro acc hacc
    by_cases hc : c = '/'
    · subst hc
      rw [splitPiecesAux_cons_slash]
      exact validPieces_cons ⟨acc.reverse, rfl, by simpa using hacc⟩ (ih [] (by simp))
    · rw [splitPiecesAux_cons_ne _ _ _ hc]
      exact ih (c :: acc) (by simp [hacc, Ne.symm hc, hc])

theorem validPieces_splitPieces (s : List Char) : ValidPieces (splitPieces s) :=
  validPieces_splitPiecesAux s [] (by simp)

theorem allSlash_splitPiecesAux : ∀ (s acc : List Char), '/' ∉ acc →
    s.getLast? = some '/' →
    ∀ p ∈ splitPiecesAux acc s, isSlashPiece p := by
  intro s
  induction s with
  | nil => intro acc _ h; cases h
  | cons c s' ih =>
    intro acc hacc h
    cases s' with
    | nil =>
      have hc : c = '/' := by simpa using h
      subst hc
      rw [splitPiecesAux_cons_slash]
      intro p hp
      rcases List.mem_cons.mp hp with h1 | h1
      · exact h1 ▸ ⟨acc.reverse, rfl, by simpa using hacc⟩
      · simp [splitPiecesAux] at h1
    | cons d s'' =>
      have h' : (d :: s'').getLast? = some '/' := by
        rwa [List.getLast?_cons_cons] at h
      by_cases hc : c = '/'
      · subst hc
        rw [splitPiecesAux_cons_slash]
        intro p hp
        rcases List.mem_cons.mp hp with h1 | h1
        · exact h1 ▸ ⟨acc.reverse, rfl, by simpa using hacc⟩
        · exact ih [] (by simp) h' p h1
      · rw [splitPiecesAux_cons_ne _ _ _ hc]
        exact ih (c :: acc) (by simp [hacc, Ne.symm hc, hc]) h'

theorem allSlash_splitPieces (s : List Char) (h : s.getLast? = some '/') :
    ∀ p ∈ splitPieces s, isSlashPiece p :=
  allSlash_splitPiecesAux s [] (by simp) h

/-- Resplitting the concatenation of a valid piece list recovers it. -/
theorem splitPieces_flatten_of_valid : ∀ (L : List (List Char)), ValidPieces L →
    splitPieces L.flatten = L := by
  intro L
  induction L with
  | nil => intro _; rfl
  | cons p L' ih =>
    intro h
    by_cases hL' : L' = []
    · subst hL'
      rcases h.2 p (by simp) with hs | he
      · obtain ⟨w, rfl, hw⟩ := hs
        simp only [List.flatten_cons, List.flatten_nil, List.append_nil]
        exact splitPieces_slash_piece w [] hw
      · rw [List.flatten_cons, List.flatten_nil, List.append_nil]
        exact splitPieces_end_piece p he.2 he.1
    · obtain ⟨w, rfl, hw⟩ := validPieces_head h hL'
      rw [List.flatten_cons, List.append_assoc, List.singleton_append,
        splitPieces_slash_piece w _ hw, ih (validPieces_of_cons h hL')]

/-! ### Piece stack lemmas -/

theorem pushPiece_updot_none (S : List (List Char)) (h : S.getLast? = none) :
    pushPiece S (toL "../") = S ++ [toL "../"] := by
  rw [pushPiece, if_neg (by decide), if_pos rfl]
  simp only [h]

theorem pushPiece_updot_root (S : List (List Char)) (h : S.getLast? = some (toL "/")) :
    pushPiece S (toL "../") = S := by
  rw [pushPiece, if_neg (by decide), if_pos rfl]
  simp only [h]
  simp

theorem pushPiece_updot_dots (S : List (List Char)) (h : S.getLast? = some (toL "../")) :
    pushPiece S (toL "../") = S ++ [toL "../"] := by
  rw [pushPiece, if_neg (by decide), if_pos rfl]
  simp only [h]
  rw [if_neg (by decide)]
  simp

theorem pushPiece_updot_pops (S : List (List Char)) (prev : List Char)
    (h : S.getLast? = some prev) (h1 : prev ≠ toL "/") (h2 : prev ≠ toL "../") :
    pushPiece S (toL "../") = S.dropLast := by
  rw [pushPiece, if_neg (by decide), if_pos rfl]
  simp only [h]
  rw [if_neg h1, if_pos h2]

theorem pushPiece_updot_pop (S : List (List Char)) (x : List Char)
    (hx : isNormalPiece x) : pushPiece (S ++ [x]) (toL "../") = S := by
  rw [pushPiece_updot_pops (S ++ [x]) x (List.getLast?_concat S) hx.2.2 hx.2.1,
    List.dropLast_concat]

theorem foldl_pushPiece_updots : ∀ (T S : List (List Char)),
    (∀ p ∈ T, isNormalPiece p) →
    List.foldl pushPiece (S ++ T) (List.replicate T.length (toL "../")) = S := by
  intro T
  induction T using List.reverseRecOn with
  | nil => intro S _; simp
  | append_singleton T' x ih =>
    intro S hT
    have hlen : (T' ++ [x]).length = T'.length + 1 := by simp
    rw [hlen, List.replicate_succ, List.foldl_cons, ← List.append_assoc,
      pushPiece_updot_pop (S ++ T') x (hT x (by simp))]
    exact ih S (fun p hp => hT p (List.mem_append_left _ hp))

theorem foldl_pushPiece_updots_all (T : List (List Char))
    (h : ∀ p ∈ T, isNormalPiece p) :
    List.foldl pushPiece T (List.replicate T.length (toL "../")) = [] := by
  have h0 := foldl_pushPiece_updots T [] h
  rwa [List.nil_append] at h0

theorem getLast?_replicate_succ (k : Nat) (x : List Char) :
    (List.replicate (k + 1) x).getLast? = some x := by
  rw [List.getLast?_replicate]
  simp

theorem pushPiece_dots_on_dots (k : Nat) :
    pushPiece (List.replicate k (toL "../")) (toL "../")
      = List.replicate (k + 1) (toL "../") := by
  cases k with
  | zero => rfl
  | succ k' =>
    rw [pushPiece_updot_dots _ (getLast?_replicate_succ k' _),
      List.replicate_succ' (k' + 1)]

theorem foldl_pushPiece_dots : ∀ (m k : Nat),
    List.foldl pushPiece (List.replicate k (toL "../"))
      (List.replicate m (toL "../")) = List.replicate (k + m) (toL "../") := by
  intro m
  induction m with
  | zero => intro k; rfl
  | succ m' ih =>
    intro k
    rw [List.replicate_succ, List.foldl_cons, pushPiece_dots_on_dots, ih (k + 1)]
    congr 1
    omega

theorem pushPiece_stackOk {S : List (List Char)} (hS : StackOk S) (p : List Char)
    (hp : p = toL "./" ∨ p = toL "../" ∨ isNormalPiece p) :
    StackOk (pushPiece S p) := by
  obtain ⟨m, N, rfl, hN⟩ := hS
  rcases hp with h | h | h
  · subst h
    rw [show pushPiece (List.replicate m (toL "../") ++ N) (toL "./")
        = List.replicate m (toL "../") ++ N by rw [pushPiece, if_pos rfl]]
    exact ⟨m, N, rfl, hN⟩
  · subst h
    cases hNe : N.isEmpty with
    | true =>
      rw [List.isEmpty_iff] at hNe
      subst hNe
      rw [List.append_nil, pushPiece_dots_on_dots]
      exact ⟨m + 1, [], by simp, by intro p hp; cases hp⟩
    | false =>
      obtain ⟨N', x, rfl⟩ : ∃ N' x, N = N' ++ [x] := by
        rcases List.eq_nil_or_concat N with h | ⟨N', x, h⟩
        · rw [h] at hNe; cases hNe
        · exact ⟨N', x, by rw [h, List.concat_eq_append]⟩
      rw [← List.append_assoc, pushPiece_updot_pop _ x (hN x (by simp))]
      exact ⟨m, N', rfl, fun p hp => hN p (List.mem_append_left _ hp)⟩
  · rw [pushPiece_plain _ _ h.1 h.2.1, List.append_assoc]
    refine ⟨m, N ++ [p], rfl, ?_⟩
    intro q hq
    rcases List.mem_append.mp hq with h1 | h1
    · exact hN q h1
    · rw [List.mem_singleton.mp h1]; exact h

theorem foldl_pushPiece_stackOk {S : List (List Char)} (hS : StackOk S) :
    ∀ (L : List (List Char)),
    (∀ p ∈ L, p = toL "./" ∨ p = toL "../" ∨ isNormalPiece p) →
    StackOk (List.foldl pushPiece S L) := by
  intro L
  induction L generalizing S with
  | nil => intro _; exact hS
  | cons x L' ih =>
    intro hL
    rw [List.foldl_cons]
    exact ih (pushPiece_stackOk hS x (hL x (List.mem_cons_self x L')))
      (fun p hp => hL p (List.mem_cons_of_mem x hp))

theorem stackOk_no_slash_piece {S : List (List Char)} (hS : StackOk S) :
    toL "/" ∉ S := by
  obtain ⟨m, N, rfl, hN⟩ := hS
  intro hmem
  rcases List.mem_append.mp hmem with h | h
  · have := List.eq_of_mem_replicate h
    exact absurd this (by decide)
  · exact (hN _ h).2.2 rfl

theorem piece_classify (p : List Char) (h : p ≠ toL "/") :
    p = toL "./" ∨ p = toL "../" ∨ isNormalPiece p := by
  by_cases h1 : p = toL "./"
  · exact Or.inl h1
  · by_cases h2 : p = toL "../"
    · exact Or.inr (Or.inl h2)
    · exact Or.inr (Or.inr ⟨h1, h2, h⟩)

theorem pushPiece_allSlash {S : List (List Char)}
    (hS : ∀ q ∈ S, isSlashPiece q) (p : List Char) (hp : isSlashPiece p) :
    ∀ q ∈ pushPiece S p, isSlashPiece q := by
  have happ : ∀ q ∈ S ++ [p], isSlashPiece q := by
    intro q hq
    rcases List.mem_append.mp hq with h | h
    · exact hS q h
    · rw [List.mem_singleton.mp h]; exact hp
  by_cases h1 : p = toL "./"
  · rw [pushPiece, if_pos h1]; exact hS
  · by_cases h2 : p = toL "../"
    · subst h2
      cases hg : S.getLast? with
      | none => rw [pushPiece_updot_none S hg]; exact happ
      | some prev =>
        by_cases h3 : prev = toL "/"
        · rw [h3] at hg
          rw [pushPiece_updot_root S hg]; exact hS
        · by_cases h4 : prev = toL "../"
          · rw [h4] at hg
            rw [pushPiece_updot_dots S hg]; exact happ
          · rw [pushPiece_updot_pops S prev hg h3 h4]
            exact fun q hq => hS q (List.dropLast_subset S hq)
    · rw [pushPiece_plain S p h1 h2]
      exact happ

theorem foldl_pushPiece_allSlash {S : List (List Char)}
    (hS : ∀ q ∈ S, isSlashPiece q) :
    ∀ (L : List (List Char)), (∀ p ∈ L, isSlashPiece p) →
    ∀ q ∈ List.foldl pushPiece S L, isSlashPiece q := by
  intro L
  induction L generalizing S with
  | nil => intro _; exact hS
  | cons x L' ih =>
    intro hL
    rw [List.foldl_cons]
    exact ih (pushPiece_allSlash hS x (hL x (List.mem_cons_self x L')))
      (fun p hp => hL p (List.mem_cons_of_mem x hp))

theorem validPieces_of_allSlash {S : List (List Char)}
    (hS : ∀ q ∈ S, isSlashPiece q) : ValidPieces S := by
  refine ⟨fun p hp => hS p (List.dropLast_subset S hp), ?_⟩
  intro p hp
  rw [List.getLast?_eq_some_iff] at hp
  obtain ⟨ys, rfl⟩ := hp
  exact Or.inl (hS p (by simp))

/-- Pushing a valid piece list onto an all-slash stack yields a valid stack. -/
theorem foldl_pushPiece_validStack {S : List (List Char)}
    (hS : ∀ q ∈ S, isSlashPiece q) :
    ∀ (L : List (List Char)), ValidPieces L →
    ValidPieces (List.foldl pushPiece S L) := by
  intro L
  induction L generalizing S with
  | nil => intro _; exact validPieces_of_allSlash hS
  | cons p L' ih =>
    intro hL
    by_cases hL' : L' = []
    · subst hL'
      rcases hL.2 p (by simp) with hs | he
      · rw [List.foldl_cons, List.foldl_nil]
        exact validPieces_of_allSlash (pushPiece_allSlash hS p hs)
      · have h1 : p ≠ toL "./" := by
          intro h; rw [h] at he; exact he.2 (by decide)
        have h2 : p ≠ toL "../" := by
          intro h; rw [h] at he; exact he.2 (by decide)
        rw [List.foldl_cons, List.foldl_nil, pushPiece_plain _ _ h1 h2]
        refine ⟨?_, ?_⟩
        · intro q hq
          rw [List.dropLast_concat] at hq
          exact hS q hq
        · intro q hq
          rw [List.getLast?_concat] at hq
          exact Or.inr ((Option.some.injEq _ _).mp hq ▸ he)
    · rw [List.foldl_cons]
      exact ih (pushPiece_allSlash hS p (validPieces_head hL hL'))
        (validPieces_of_cons hL hL')

/-! ### Directory-portion and common-prefix lemmas -/

theorem dirPortion_decomp (s : List Char) :
    ∃ tail, s = dirPortion s ++ tail ∧ '/' ∉ tail := by
  refine ⟨(s.reverse.takeWhile (fun c => decide (c ≠ '/'))).reverse, ?_, ?_⟩
  · rw [dirPortion]
    conv_lhs => rw [← s.reverse_reverse]
    conv_lhs => rw [← List.takeWhile_append_dropWhile (fun c => decide (c ≠ '/')) s.reverse]
    rw [List.reverse_append]
  · intro hmem
    rw [List.mem_reverse] at hmem
    have := List.mem_takeWhile_imp hmem
    simp at this

theorem dirPortion_ends_slash (s : List Char) :
    dirPortion s = [] ∨ (dirPortion s).getLast? = some '/' := by
  rw [dirPortion]
  cases hd : s.reverse.dropWhile (fun c => decide (c ≠ '/')) with
  | nil => exact Or.inl rfl
  | cons x xs =>
    have hx : ¬(fun c => decide (c ≠ '/')) x = true := by
      have := List.head?_dropWhile_not (fun c => decide (c ≠ '/')) s.reverse
      rw [hd] at this
      simpa using this
    have hx' : x = '/' := by simpa using hx
    right
    rw [List.reverse_cons, hx', List.getLast?_concat]

theorem commonPrefixOf_prefix_left : ∀ (a b : List Char),
    ∃ r, a = commonPrefixOf a b ++ r := by
  intro a
  induction a with
  | nil => intro b; exact ⟨[], by cases b <;> rfl⟩
  | cons x xs ih =>
    intro b
    cases b with
    | nil => exact ⟨x :: xs, rfl⟩
    | cons y ys =>
      by_cases hxy : x = y
      · obtain ⟨r, hr⟩ := ih ys
        exact ⟨r, by rw [commonPrefixOf, if_pos hxy, List.cons_append, ← hr]⟩
      · exact ⟨x :: xs, by rw [commonPrefixOf, if_neg hxy]; rfl⟩

theorem commonPrefixOf_prefix_right : ∀ (a b : List Char),
    ∃ r, b = commonPrefixOf a b ++ r := by
  intro a
  induction a with
  | nil => intro b; exact ⟨b, by cases b <;> rfl⟩
  | cons x xs ih =>
    intro b
    cases b with
    | nil => exact ⟨[], rfl⟩
    | cons y ys =>
      by_cases hxy : x = y
      · obtain ⟨r, hr⟩ := ih ys
        refine ⟨r, ?_⟩
        rw [commonPrefixOf, if_pos hxy, List.cons_append, ← hr, hxy]
      · exact ⟨y :: ys, by rw [commonPrefixOf, if_neg hxy]; rfl⟩

/-! ### Counting lemmas -/

theorem count_flatten_allSlash : ∀ (L : List (List Char)),
    (∀ p ∈ L, isSlashPiece p) → (L.flatten).count '/' = L.length := by
  intro L
  induction L with
  | nil => intro _; rfl
  | cons p L' ih =>
    intro h
    have hp := h _ (List.mem_cons_self _ _)
    obtain ⟨w, rfl, hw⟩ := hp
    rw [List.flatten_cons, List.count_append, List.count_append,
      ih (fun q hq => h q (List.mem_cons_of_mem _ hq))]
    rw [List.count_eq_zero_of_not_mem (by simpa using hw)]
    simp [List.count_singleton]
    omega

theorem length_splitPieces_eq_count (s : List Char) (h : s.getLast? = some '/') :
    (splitPieces s).length = s.count '/' := by
  conv_rhs => rw [← flatten_splitPieces s]
  rw [count_flatten_allSlash (splitPieces s) (allSlash_splitPieces s h)]

/-! ### Prefix-boundary lemma -/

theorem prefix_le_of_slash (p tail pfx X : List Char)
    (heq : p ++ tail = pfx ++ X) (htail : '/' ∉ tail)
    (hpfx : ∃ w, pfx = w ++ ['/']) : pfx.length ≤ p.length := by
  by_contra hlt
  push_neg at hlt
  obtain ⟨w, rfl⟩ := hpfx
  have hle : p.length ≤ w.length := by
    have := hlt
    simp only [List.length_append, List.length_singleton] at this
    omega
  have htl : tail = (w ++ ['/']).drop p.length ++ X := by
    have h1 : tail = (p ++ tail).drop p.length := by
      rw [List.drop_left]
    rw [h1, heq, List.drop_append_of_le_length (by simpa using hlt.le)]
  have hdrop : (w ++ ['/']).drop p.length = w.drop p.length ++ ['/'] := by
    rw [List.drop_append_of_le_length hle]
  have : '/' ∈ tail := by
    rw [htl, hdrop]
    simp
  exact htail this

/-! ### Protocol-prefix lemmas -/

theorem startsWith_decomp {a n : List Char} (h : startsWith a n = true) :
    a = n ++ a.drop n.length := by
  rw [startsWith, decide_eq_true_iff] at h
  conv_lhs => rw [← List.take_append_drop n.length a]
  rw [h.2]

theorem not_protocol_of_no_slash_piece (s : List Char)
    (h : toL "/" ∉ splitPieces s) :
    startsWith s (toL "/") = false ∧ startsWith s (toL "//") = false ∧
    startsWith s (toL "http://") = false ∧ startsWith s (toL "https://") = false := by
  have hslash : ∀ t : List Char, s = '/' :: t → False := by
    intro t ht
    exact h (ht ▸ (splitPieces_slash_cons t ▸ List.mem_cons_self _ _))
  have h1 : startsWith s (toL "/") = false := by
    cases hs : startsWith s (toL "/") with
    | false => rfl
    | true =>
      exact absurd (startsWith_decomp hs) (fun he => hslash _ he)
  have h2 : startsWith s (toL "//") = false := by
    cases hs : startsWith s (toL "//") with
    | false => rfl
    | true =>
      exact absurd (startsWith_decomp hs) (fun he => hslash _ he)
  have h3 : startsWith s (toL "http://") = false := by
    cases hs : startsWith s (toL "http://") with
    | false => rfl
    | true =>
      have hd := startsWith_decomp hs
      have : toL "/" ∈ splitPieces s := by
        rw [hd, show toL "http://" ++ s.drop (toL "http://").length
            = (toL "http:" ++ ['/']) ++ ('/' :: s.drop 7) from rfl]
        rw [splitPieces_append _ _ (by rw [List.getLast?_concat]),
          splitPieces_slash_cons]
        simp
      exact absurd this h
  have h4 : startsWith s (toL "https://") = false := by
    cases hs : startsWith s (toL "https://") with
    | false => rfl
    | true =>
      have hd := startsWith_decomp hs
      have : toL "/" ∈ splitPieces s := by
        rw [hd, show toL "https://" ++ s.drop (toL "https://").length
            = (toL "https:" ++ ['/']) ++ ('/' :: s.drop 8) from rfl]
        rw [splitPieces_append _ _ (by rw [List.getLast?_concat]),
          splitPieces_slash_cons]
        simp
      exact absurd this h
  exact ⟨h1, h2, h3, h4⟩

theorem aPathStart_of_no_slash_piece (a : List Char)
    (h : toL "/" ∉ splitPieces a) : aPathStart a = 0 := by
  obtain ⟨-, h2, h3, h4⟩ := not_protocol_of_no_slash_piece a h
  rw [aPathStart]
  simp [findSlashIndexAfterPrefix, h2, h3, h4]

/-! ### Round-trip machinery -/

theorem relativePath_count (fromPath toPath : List Char)
    (h : (startsWith toPath (toL "/") || startsWith toPath (toL "http://")
        || startsWith toPath (toL "https://")) = false) :
    relativePath fromPath toPath
      = (List.replicate
          ((fromPath.drop (commonFolderPrefixOf fromPath toPath).length).count '/')
          (toL "../")).flatten
        ++ toPath.drop (commonFolderPrefixOf fromPath toPath).length := by
  simp only [relativePath, h, Bool.false_eq_true, if_false, jsSplit_length,
    Nat.add_sub_cancel]

theorem splitPieces_replicate_dots : ∀ (d : Nat) (t : List Char),
    splitPieces ((List.replicate d (toL "../")).flatten ++ t)
      = List.replicate d (toL "../") ++ splitPieces t := by
  intro d
  induction d with
  | zero => intro t; simp
  | succ d' ih =>
    intro t
    rw [List.replicate_succ, List.flatten_cons, List.append_assoc]
    rw [show toL "../" ++ ((List.replicate d' (toL "../")).flatten ++ t)
        = ['.', '.'] ++ '/' :: ((List.replicate d' (toL "../")).flatten ++ t) from rfl]
    rw [splitPieces_slash_piece _ _ (by decide), ih]
    rfl

/-- The `joinPaths` computation when the base has a zero path-start index and
the second argument does not begin with `/`. -/
theorem joinPaths_stack (P b : List Char)
    (hP0 : aPathStart P = 0)
    (hPplain : ∀ p ∈ splitPieces P, p ≠ toL "./" ∧ p ≠ toL "../")
    (hb : ¬ b.head? = some '/') :
    joinPaths P b
      = (List.foldl pushPiece (splitPieces P) (splitPieces b)).flatten := by
  simp only [joinPaths, hP0, List.take_zero, List.drop_zero, List.nil_append]
  rw [if_neg hb, pushAll, pushAll, foldl_pushPiece_plain _ _ hPplain,
    List.nil_append]

/-- Core of the round-trip: rejoining the relative path computed from a
normalized stack output recovers that output. -/
theorem rejoin_core (P tail f : List Char) (S : List (List Char))
    (hft : f = P ++ tail) (htail : '/' ∉ tail)
    (hPcases : P = [] ∨ ∃ w, P = w ++ ['/'])
    (hPnormal : ∀ p ∈ splitPieces P, isNormalPiece p)
    (hSok : StackOk S) (hSvalid : ValidPieces S) :
    joinPaths P (relativePath f S.flatten) = S.flatten := by
  have hP0 : aPathStart P = 0 :=
    aPathStart_of_no_slash_piece P (fun hmem => (hPnormal _ hmem).2.2 rfl)
  have hPplain : ∀ p ∈ splitPieces P, p ≠ toL "./" ∧ p ≠ toL "../" :=
    fun p hp => ⟨(hPnormal p hp).1, (hPnormal p hp).2.1⟩
  have hresplit : splitPieces S.flatten = S := splitPieces_flatten_of_valid S hSvalid
  have hSnos : toL "/" ∉ S := stackOk_no_slash_piece hSok
  obtain ⟨habs1, habs2, habs3, habs4⟩ :=
    not_protocol_of_no_slash_piece S.flatten (by rw [hresplit]; exact hSnos)
  have hpass : (startsWith S.flatten (toL "/") || startsWith S.flatten (toL "http://")
      || startsWith S.flatten (toL "https://")) = false := by
    rw [habs1, habs3, habs4]; rfl
  have hrel := relativePath_count f S.flatten hpass
  have habs_head : ¬ S.flatten.head? = some '/' := by
    intro hh
    obtain ⟨u, hu⟩ := List.head?_eq_some_iff.mp hh
    rw [hu] at habs1
    simp [startsWith, toL] at habs1
  -- decomposition along the common folder prefix
  obtain ⟨r1, hcp1⟩ := commonPrefixOf_prefix_left f S.flatten
  obtain ⟨r2, hcp2⟩ := commonPrefixOf_prefix_right f S.flatten
  obtain ⟨ct, hct, hctno⟩ := dirPortion_decomp (commonPrefixOf f S.flatten)
  have hfdec : f = commonFolderPrefixOf f S.flatten ++ (ct ++ r1) := by
    rw [commonFolderPrefixOf, ← List.append_assoc, ← hct]
    exact hcp1
  have habsdec : S.flatten = commonFolderPrefixOf f S.flatten ++ (ct ++ r2) := by
    rw [commonFolderPrefixOf, ← List.append_assoc, ← hct]
    exact hcp2
  have hfdrop : f.drop (commonFolderPrefixOf f S.flatten).length = ct ++ r1 := by
    have h := List.drop_left (commonFolderPrefixOf f S.flatten) (ct ++ r1)
    rwa [← hfdec] at h
  have habsdrop : S.flatten.drop (commonFolderPrefixOf f S.flatten).length = ct ++ r2 := by
    have h := List.drop_left (commonFolderPrefixOf f S.flatten) (ct ++ r2)
    rwa [← habsdec] at h
  have hpfxcases : commonFolderPrefixOf f S.flatten = []
      ∨ ∃ w, commonFolderPrefixOf f S.flatten = w ++ ['/'] := by
    rcases dirPortion_ends_slash (commonPrefixOf f S.flatten) with h | h
    · exact Or.inl h
    · exact Or.inr (List.getLast?_eq_some_iff.mp h)
  rcases hpfxcases with hpfx0 | ⟨w, hwpfx⟩
  · -- empty common folder prefix
    rw [hpfx0] at hrel
    simp only [List.length_nil, List.drop_zero] at hrel
    have hcount : f.count '/' = (splitPieces P).length := by
      conv_lhs => rw [hft]
      rw [List.count_append, List.count_eq_zero_of_not_mem htail, Nat.add_zero]
      rcases hPcases with h | ⟨w', hw'⟩
      · rw [h]; rfl
      · rw [length_splitPieces_eq_count _ (by rw [hw', List.getLast?_concat])]
    rw [hcount] at hrel
    have hrhead' : ¬ (relativePath f S.flatten).head? = some '/' := by
      rw [hrel]
      cases hc : (splitPieces P).length with
      | zero =>
        simpa using habs_head
      | succ n =>
        rw [List.replicate_succ, List.flatten_cons, List.append_assoc]
        intro hh
        simp [toL] at hh
    rw [joinPaths_stack P _ hP0 hPplain hrhead', hrel, splitPieces_replicate_dots,
      hresplit, List.foldl_append]
    rw [foldl_pushPiece_updots_all (splitPieces P) hPnormal]
    obtain ⟨m, N, hSmn, hN⟩ := hSok
    rw [hSmn, List.foldl_append,
      show ([] : List (List Char)) = List.replicate 0 (toL "../") from rfl,
      foldl_pushPiece_dots m 0,
      foldl_pushPiece_plain _ _ (fun p hp => ⟨(hN p hp).1, (hN p hp).2.1⟩),
      Nat.zero_add]
  · -- nonempty slash-closed common folder prefix
    have heq2 : P ++ tail = commonFolderPrefixOf f S.flatten ++ (ct ++ r1) := by
      rw [← hft]; exact hfdec
    have hkle : (commonFolderPrefixOf f S.flatten).length ≤ P.length :=
      prefix_le_of_slash P tail _ _ heq2 htail ⟨w, hwpfx⟩
    have hPdec : P = commonFolderPrefixOf f S.flatten
        ++ P.drop (commonFolderPrefixOf f S.flatten).length := by
      have h2 : (P ++ tail).take (commonFolderPrefixOf f S.flatten).length
          = P.take (commonFolderPrefixOf f S.flatten).length :=
        List.take_append_of_le_length hkle
      rw [← hft] at h2
      have h3 := List.take_left (commonFolderPrefixOf f S.flatten) (ct ++ r1)
      rw [← hfdec] at h3
      have h1 : P.take (commonFolderPrefixOf f S.flatten).length
          = commonFolderPrefixOf f S.flatten := h2.symm.trans h3
      conv_lhs => rw [← List.take_append_drop (commonFolderPrefixOf f S.flatten).length P, h1]
    have hsplitP : splitPieces P
        = splitPieces (commonFolderPrefixOf f S.flatten)
          ++ splitPieces (P.drop (commonFolderPrefixOf f S.flatten).length) := by
      conv_lhs => rw [hPdec]
      exact splitPieces_append _ _ (by rw [hwpfx, List.getLast?_concat])
    have hpfxnormal : ∀ p ∈ splitPieces (commonFolderPrefixOf f S.flatten),
        isNormalPiece p :=
      fun p hp => hPnormal p (hsplitP ▸ List.mem_append_left _ hp)
    have hQnormal : ∀ p ∈ splitPieces (P.drop (commonFolderPrefixOf f S.flatten).length),
        isNormalPiece p :=
      fun p hp => hPnormal p (hsplitP ▸ List.mem_append_right _ hp)
    have hQlen : (splitPieces (P.drop (commonFolderPrefixOf f S.flatten).length)).length
        = (f.drop (commonFolderPrefixOf f S.flatten).length).count '/' := by
      have h1 : f.drop (commonFolderPrefixOf f S.flatten).length
          = P.drop (commonFolderPrefixOf f S.flatten).length ++ tail := by
        have h0 : (P ++ tail).drop (commonFolderPrefixOf f S.flatten).length
            = P.drop (commonFolderPrefixOf f S.flatten).length ++ tail :=
          List.drop_append_of_le_length hkle
        rwa [← hft] at h0
      rw [h1, List.count_append, List.count_eq_zero_of_not_mem htail, Nat.add_zero]
      by_cases hk : (commonFolderPrefixOf f S.flatten).length = P.length
      · rw [hk, List.drop_length]
        rfl
      · have hklt : (commonFolderPrefixOf f S.flatten).length < P.length :=
          lt_of_le_of_ne hkle hk
        rcases hPcases with h | ⟨w', hw'⟩
        · rw [h] at hklt; simp at hklt
        · refine length_splitPieces_eq_count _ ?_
          have hkw : (commonFolderPrefixOf f S.flatten).length ≤ w'.length := by
            have := hklt
            rw [hw'] at this
            simp only [List.length_append, List.length_singleton] at this
            omega
          rw [hw', List.drop_append_of_le_length hkw, List.getLast?_concat]
    obtain ⟨m, N, hSmn, hN⟩ := hSok
    have hpfxne : splitPieces (commonFolderPrefixOf f S.flatten) ≠ [] := by
      rw [Ne, splitPieces_eq_nil_iff, hwpfx]
      simp
    have habs_split : splitPieces (commonFolderPrefixOf f S.flatten)
        ++ splitPieces (S.flatten.drop (commonFolderPrefixOf f S.flatten).length) = S := by
      have h1 : splitPieces S.flatten
          = splitPieces (commonFolderPrefixOf f S.flatten)
            ++ splitPieces (S.flatten.drop (commonFolderPrefixOf f S.flatten).length) := by
        conv_lhs => rw [habsdec]
        rw [splitPieces_append _ _ (by rw [hwpfx, List.getLast?_concat]), habsdrop]
      rw [← h1, hresplit]
    have hm0 : m = 0 := by
      by_contra hm
      cases hspfx : splitPieces (commonFolderPrefixOf f S.flatten) with
      | nil => exact hpfxne hspfx
      | cons p0 ps =>
        have h1 : S.head? = some p0 := by
          rw [← habs_split, hspfx]; rfl
        have h2 : S.head? = some (toL "../") := by
          rw [hSmn]
          cases m with
          | zero => exact absurd rfl hm
          | succ m' => rw [List.replicate_succ]; rfl
        have hp0 : p0 = toL "../" := by
          rw [h1] at h2
          exact Option.some.inj h2
        exact (hpfxnormal p0 (hspfx ▸ List.mem_cons_self _ _)).2.1 hp0
    have hSnormal : ∀ p ∈ S, isNormalPiece p := by
      rw [hSmn, hm0]
      simpa using hN
    have habsQnormal : ∀ p ∈ splitPieces (S.flatten.drop (commonFolderPrefixOf f S.flatten).length),
        isNormalPiece p :=
      fun p hp => hSnormal p (habs_split ▸ List.mem_append_right _ hp)
    have hrhead' : ¬ (relativePath f S.flatten).head? = some '/' := by
      rw [hrel]
      cases hc : (f.drop (commonFolderPrefixOf f S.flatten).length).count '/' with
      | zero =>
        simp only [List.replicate_zero, List.flatten_nil, List.nil_append]
        intro hh
        obtain ⟨u, hu⟩ := List.head?_eq_some_iff.mp hh
        have hmem : toL "/" ∈ splitPieces
            (S.flatten.drop (commonFolderPrefixOf f S.flatten).length) := by
          rw [hu, splitPieces_slash_cons]
          exact List.mem_cons_self _ _
        exact (habsQnormal _ hmem).2.2 rfl
      | succ n =>
        rw [List.replicate_succ, List.flatten_cons, List.append_assoc]
        intro hh
        simp [toL] at hh
    rw [joinPaths_stack P _ hP0 hPplain hrhead', hrel, splitPieces_replicate_dots,
      List.foldl_append, hsplitP, ← hQlen,
      foldl_pushPiece_updots _ _ hQnormal,
      foldl_pushPiece_plain _ _ (fun p hp => ⟨(habsQnormal p hp).1, (habsQnormal p hp).2.1⟩),
      habs_split]

/-! ### Claim C5 -/

/-- Counterexample to claim C5 as stated: with `from = "a/./b"` and
`rel = "x"`, the `./` segment of `from` inflates the `../` count computed by
`relativePath` (which counts raw `/` characters), so rejoining yields `"x"`
instead of the absolute location `"a/x"`. -/
theorem c5_counterexample :
    joinPaths (pathOf (toL "a/./b")) (toL "x") = toL "a/x"
    ∧ joinPaths (pathOf (toL "a/./b"))
        (relativePath (toL "a/./b") (joinPaths (pathOf (toL "a/./b")) (toL "x")))
      = toL "x"
    ∧ toL "x" ≠ toL "a/x" :=
  ⟨rfl, rfl, by decide⟩

/-- Claim C5 as amended: the round trip
`joinPaths (pathOf from) (relativePath from (joinPaths (pathOf from) rel))
= joinPaths (pathOf from) rel` holds whenever no slash-separated segment of
`from` is `./`, `../` or empty (so `from` carries no `//` and no protocol
prefix), and `rel` has no empty segment (no `//` and no leading `/`). -/
theorem c5_roundtrip (f r : List Char)
    (hf : ∀ p ∈ splitPieces f, isNormalPiece p)
    (hr : ∀ p ∈ splitPieces r, p ≠ toL "/") :
    joinPaths (pathOf f) (relativePath f (joinPaths (pathOf f) r))
      = joinPaths (pathOf f) r := by
  obtain ⟨tail, hft, htail⟩ := dirPortion_decomp f
  have hPcases : dirPortion f = [] ∨ ∃ w, dirPortion f = w ++ ['/'] := by
    rcases dirPortion_ends_slash f with h | h
    · exact Or.inl h
    · exact Or.inr (List.getLast?_eq_some_iff.mp h)
  have hPf : splitPieces f = splitPieces (dirPortion f) ++ splitPieces tail := by
    conv_lhs => rw [hft]
    rcases hPcases with h | ⟨w, hw⟩
    · rw [h, List.nil_append]
      rfl
    · exact splitPieces_append _ _ (by rw [hw, List.getLast?_concat])
  have hPnormal : ∀ p ∈ splitPieces (dirPortion f), isNormalPiece p :=
    fun p hp => hf p (hPf ▸ List.mem_append_left _ hp)
  have hrpieces : ∀ p ∈ splitPieces r, p = toL "./" ∨ p = toL "../" ∨ isNormalPiece p :=
    fun p hp => piece_classify p (hr p hp)
  have hrhead : ¬ r.head? = some '/' := by
    intro hh
    obtain ⟨t, rfl⟩ := List.head?_eq_some_iff.mp hh
    exact hr _ (splitPieces_slash_cons t ▸ List.mem_cons_self _ _) rfl
  have hP0 : aPathStart (dirPortion f) = 0 :=
    aPathStart_of_no_slash_piece _ (fun hmem => (hPnormal _ hmem).2.2 rfl)
  have hPplain : ∀ p ∈ splitPieces (dirPortion f), p ≠ toL "./" ∧ p ≠ toL "../" :=
    fun p hp => ⟨(hPnormal p hp).1, (hPnormal p hp).2.1⟩
  have habs : joinPaths (dirPortion f) r
      = (List.foldl pushPiece (splitPieces (dirPortion f)) (splitPieces r)).flatten :=
    joinPaths_stack _ r hP0 hPplain hrhead
  have hSok : StackOk (List.foldl pushPiece (splitPieces (dirPortion f)) (splitPieces r)) :=
    foldl_pushPiece_stackOk
      ⟨0, splitPieces (dirPortion f),
        by rw [List.replicate_zero, List.nil_append], hPnormal⟩
      _ hrpieces
  have hPslashAll : ∀ q ∈ splitPieces (dirPortion f), isSlashPiece q := by
    rcases hPcases with h | ⟨w, hw⟩
    · rw [h]
      intro q hq
      rw [show splitPieces ([] : List Char) = [] from rfl] at hq
      cases hq
    · exact allSlash_splitPieces _ (by rw [hw, List.getLast?_concat])
  have hSvalid : ValidPieces
      (List.foldl pushPiece (splitPieces (dirPortion f)) (splitPieces r)) :=
    foldl_pushPiece_validStack hPslashAll _ (validPieces_splitPieces r)
  simp only [pathOf]
  rw [habs]
  exact rejoin_core (dirPortion f) tail f _ hft htail hPcases hPnormal hSok hSvalid

theorem c5_roundtrip_witness :
    joinPaths (pathOf (toL "a/b")) (relativePath (toL "a/b")
      (joinPaths (pathOf (toL "a/b")) (toL "../c")))
      = joinPaths (pathOf (toL "a/b")) (toL "../c") :=
  c5_roundtrip (toL "a/b") (toL "../c") (by decide) (by decide)

end CssBuild
